import Mathlib

/-!
Shallow embedding of the usage-accounting subsystem of
`src/cmd/student-manager/main.go`: the rate limiter (`canMakePing`,
`setPingInfo`), the usage recorder (`increaseCounter`), the session gate
(the cookie/session checks at the top of `handlePing`), the leaderboard
reader (`handleTop` via Redis `ZREVRANGE`) and the cardinality reader
(`handleCount` via Redis `PFCOUNT`).

The Redis structures are modelled as follows.

* The per-caller ping hash (`HGetAll`/`HSet` on key `"ping-" ++ username`)
  becomes a function `String → Option RateState`.
* The sorted set `top_pings` (`ZScore`/`ZAdd`/`ZRevRangeWithScores`)
  becomes an association list `List (String × Int)` with unique members;
  `ZAdd` updates or appends, `ZRevRangeWithScores` sorts by score
  descending and takes a count.  The Go code stores float64 scores, but
  every score it ever writes is `previous + 1` starting from 0, values on
  which float64 arithmetic is exact, so `Int` scores are faithful.
* The HyperLogLog (`PFAdd`/`PFCount`) is taken at its exact-set model: a
  duplicate-free `List String`, with `PFCount` its length.
* The session keyspace (`Set`/`Get` of sessionID → username) becomes a
  function `String → Option String`.

Timestamps (`time.Now().Unix()`, parsed back with
`strconv.ParseInt _ 10 32` and `int` casts) are modelled as `Int`; the
values involved fit 32 bits, where the casts are the identity.  The
`math.Max`/`float64` computation of `newBlockTime` is `max` on `Int`,
exact for these integral values.
-/

/-- Constant `PingRateLimit` from the Go source (seconds of cooldown window). -/
def PingRateLimit : Int := 60

/-- Constant `TopPingCount` from the Go source (size of the /top leaderboard). -/
def TopPingCount : Nat := 10

/-- The per-caller rate-limiting record stored in the Redis hash
`"ping-" ++ username`: fields `blockTime` and `lastPingTime`. -/
structure RateState where
  blockTime : Int
  lastPingTime : Int
deriving DecidableEq, Repr

/-- The whole mutable state the Go program keeps in Redis. -/
structure Store where
  /-- sessionID → username (`redisClient.Set`/`Get`). -/
  sessions : String → Option String
  /-- per-caller ping hash, keyed by the full `"ping-" ++ username` key. -/
  pings : String → Option RateState
  /-- sorted set `top_pings` as an association list member → score. -/
  board : List (String × Int)
  /-- HyperLogLog `hyperloglog` at its exact-set model. -/
  hll : List String

/-- Go `setPingInfo`: write both hash fields of key `pingID`. -/
def setPingInfo (pings : String → Option RateState) (pingID : String)
    (blockTime lastPingTime : Int) : String → Option RateState :=
  fun k => if k = pingID then some ⟨blockTime, lastPingTime⟩ else pings k

/-- Go `canMakePing`: fetch the hash at `"ping-" ++ username`; if absent,
store `{blockTime := 0, lastPingTime := now}` and allow; otherwise allow
exactly when `now - lastPingTime > blockTime`, storing
`{blockTime := max 0 (lastPingTime + PingRateLimit - now), lastPingTime := now}`.
Returns the decision together with the updated ping keyspace. -/
def canMakePing (pings : String → Option RateState) (username : String)
    (now : Int) : Bool × (String → Option RateState) :=
  let pingID := "ping-" ++ username
  match pings pingID with
  | none => (true, setPingInfo pings pingID 0 now)
  | some info =>
    if now - info.lastPingTime > info.blockTime then
      let newBlockTime := max 0 (info.lastPingTime + PingRateLimit - now)
      (true, setPingInfo pings pingID newBlockTime now)
    else
      (false, pings)

/-- Redis `ZSCORE`: the score of `member`, or `none` when absent. -/
def zscore : List (String × Int) → String → Option Int
  | [], _ => none
  | p :: rest, member => if p.1 = member then some p.2 else zscore rest member

/-- Redis `ZADD`: update the score of `member`, appending it when absent. -/
def zadd : List (String × Int) → String → Int → List (String × Int)
  | [], member, score => [(member, score)]
  | p :: rest, member, score =>
    if p.1 = member then (member, score) :: rest else p :: zadd rest member score

/-- Redis `PFADD` at the exact-set model: add `member` if not yet present. -/
def pfadd (hll : List String) (member : String) : List String :=
  if member ∈ hll then hll else hll ++ [member]

/-- Redis `PFCOUNT` at the exact-set model: the number of distinct members. -/
def pfcount (hll : List String) : Int := hll.length

/-- Go `increaseCounter`: read the caller's score (`ZScore`, defaulting to 0
when the member is absent), write back `score + 1` (`ZAdd`), and register
the caller in the HyperLogLog (`PFAdd`). -/
def increaseCounter (board : List (String × Int)) (hll : List String)
    (username : String) : List (String × Int) × List String :=
  let totalPing := (zscore board username).getD 0
  (zadd board username (totalPing + 1), pfadd hll username)

/-- Result of the session gate at the top of Go `handlePing`. -/
inductive AuthResult where
  | unauthorized : AuthResult
  | ok : String → AuthResult
deriving DecidableEq, Repr

/-- The session gate of Go `handlePing` (lines 138-158): a missing cookie
fails, a sessionID not bound in Redis fails, and an empty sessionID or an
empty bound username fails; otherwise the bound username is returned. -/
def validateSession (sessions : String → Option String)
    (cookie : Option String) : AuthResult :=
  match cookie with
  | none => .unauthorized
  | some sessionID =>
    match sessions sessionID with
    | none => .unauthorized
    | some username =>
      if sessionID = "" ∨ username = "" then .unauthorized else .ok username

/-- HTTP outcome of Go `handlePing`. -/
inductive PingResp where
  | unauthorized : PingResp
  | rateLimited : PingResp
  | ok : PingResp
deriving DecidableEq, Repr

/-- Go `handlePing`: session gate, then `canMakePing`, then (only when
allowed) `increaseCounter`. -/
def handlePing (st : Store) (cookie : Option String) (now : Int) :
    PingResp × Store :=
  match validateSession st.sessions cookie with
  | .unauthorized => (.unauthorized, st)
  | .ok username =>
    let r := canMakePing st.pings username now
    if r.1 then
      let r2 := increaseCounter st.board st.hll username
      (.ok, { st with pings := r.2, board := r2.1, hll := r2.2 })
    else
      (.rateLimited, { st with pings := r.2 })

/-- Run a sequence of `/ping` requests, each a cookie and a timestamp. -/
def runPing (st : Store) : List (Option String × Int) → Store
  | [] => st
  | e :: rest => runPing (handlePing st e.1 e.2).2 rest

/-- Go `handleTop` / Redis `ZREVRANGE 0 (count-1) WITHSCORES`: the members
sorted by score descending, truncated to `count` entries. -/
def zRevRangeWithScores (board : List (String × Int)) (count : Nat) :
    List (String × Int) :=
  (List.insertionSort (fun p q => q.2 ≤ p.2) board).take count

/-- Go `handleTop` queries the fixed top `TopPingCount`. -/
def handleTop (board : List (String × Int)) : List (String × Int) :=
  zRevRangeWithScores board TopPingCount

/-- Go `handleCount`: the HyperLogLog estimate of distinct callers. -/
def handleCount (hll : List String) : Int := pfcount hll

/-! ### Basic lemmas about the embedded store operations -/

theorem setPingInfo_self (pings : String → Option RateState) (pingID : String)
    (b l : Int) : setPingInfo pings pingID b l pingID = some ⟨b, l⟩ := by
  simp [setPingInfo]

theorem setPingInfo_ne (pings : String → Option RateState) (pingID k : String)
    (b l : Int) (h : k ≠ pingID) : setPingInfo pings pingID b l k = pings k := by
  simp [setPingInfo, h]

theorem canMakePing_eq_of_none (pings : String → Option RateState) (u : String)
    (now : Int) (h : pings ("ping-" ++ u) = none) :
    canMakePing pings u now = (true, setPingInfo pings ("ping-" ++ u) 0 now) := by
  simp [canMakePing, h]

theorem canMakePing_eq_of_elapsed (pings : String → Option RateState) (u : String)
    (now : Int) (info : RateState) (h : pings ("ping-" ++ u) = some info)
    (hgt : now - info.lastPingTime > info.blockTime) :
    canMakePing pings u now =
      (true, setPingInfo pings ("ping-" ++ u)
        (max 0 (info.lastPingTime + PingRateLimit - now)) now) := by
  simp [canMakePing, h, hgt]

theorem canMakePing_eq_of_within (pings : String → Option RateState) (u : String)
    (now : Int) (info : RateState) (h : pings ("ping-" ++ u) = some info)
    (hle : ¬ now - info.lastPingTime > info.blockTime) :
    canMakePing pings u now = (false, pings) := by
  simp [canMakePing, h, hle]

theorem canMakePing_snd_of_not_allowed (pings : String → Option RateState)
    (u : String) (now : Int) (h : (canMakePing pings u now).1 = false) :
    (canMakePing pings u now).2 = pings := by
  unfold canMakePing at h ⊢
  cases hi : pings ("ping-" ++ u) with
  | none => simp [hi] at h
  | some info =>
    simp only [hi] at h ⊢
    by_cases hgt : now - info.lastPingTime > info.blockTime
    · simp [hgt] at h
    · simp [hgt]

theorem handlePing_eq_of_unauthorized (st : Store) (cookie : Option String)
    (now : Int) (h : validateSession st.sessions cookie = .unauthorized) :
    handlePing st cookie now = (.unauthorized, st) := by
  simp [handlePing, h]

theorem handlePing_eq_of_allowed (st : Store) (cookie : Option String)
    (now : Int) (u : String) (h : validateSession st.sessions cookie = .ok u)
    (ha : (canMakePing st.pings u now).1 = true) :
    handlePing st cookie now =
      (.ok,
        { st with
          pings := (canMakePing st.pings u now).2,
          board := (increaseCounter st.board st.hll u).1,
          hll := (increaseCounter st.board st.hll u).2 }) := by
  simp [handlePing, h, ha, increaseCounter]

theorem handlePing_eq_of_blocked (st : Store) (cookie : Option String)
    (now : Int) (u : String) (h : validateSession st.sessions cookie = .ok u)
    (ha : (canMakePing st.pings u now).1 = false) :
    handlePing st cookie now = (.rateLimited, st) := by
  have h2 := canMakePing_snd_of_not_allowed st.pings u now ha
  simp only [handlePing, h, ha, Bool.false_eq_true, if_false, h2]

/-! ### Claim theorems C2, C3, C4 and their witnesses -/

/-- C3: a caller with no existing RateState is Allowed, and its record is
created with `blockTime = 0` and `lastPingTime = now`; no other key of the
ping keyspace changes. -/
theorem canMakePing_first_call (pings : String → Option RateState) (u : String)
    (now : Int) (h : pings ("ping-" ++ u) = none) :
    (canMakePing pings u now).1 = true ∧
    (canMakePing pings u now).2 ("ping-" ++ u) = some ⟨0, now⟩ ∧
    ∀ k, k ≠ "ping-" ++ u → (canMakePing pings u now).2 k = pings k := by
  rw [canMakePing_eq_of_none pings u now h]
  exact ⟨rfl, setPingInfo_self _ _ _ _, fun k hk => setPingInfo_ne _ _ _ _ _ hk⟩

/-- C3 witness: the first-ever call of alice at time 7 is allowed and
creates the record `{blockTime := 0, lastPingTime := 7}`. -/
theorem canMakePing_first_call_witness :
    (canMakePing (fun _ => none) "alice" 7).1 = true ∧
    (canMakePing (fun _ => none) "alice" 7).2 "ping-alice" = some ⟨0, 7⟩ ∧
    (canMakePing (fun _ => none) "alice" 7).2 "ping-bob" = none := by
  have h := canMakePing_first_call (fun _ => none) "alice" 7 rfl
  exact ⟨h.1, h.2.1, h.2.2 "ping-bob" (by decide)⟩

/-- C2: a caller whose RateState exists and for which
`now - lastPingTime > blockTime` is Allowed; the persisted record becomes
`{blockTime := max 0 (lastPingTime + PingRateLimit - now), lastPingTime := now}`,
no other key changes, and the stored block period is clamped to `0` whenever
`lastPingTime + PingRateLimit ≤ now`. -/
theorem canMakePing_allowed_update (pings : String → Option RateState)
    (u : String) (now : Int) (info : RateState)
    (h : pings ("ping-" ++ u) = some info)
    (hgt : now - info.lastPingTime > info.blockTime) :
    (canMakePing pings u now).1 = true ∧
    (canMakePing pings u now).2 ("ping-" ++ u) =
      some ⟨max 0 (info.lastPingTime + PingRateLimit - now), now⟩ ∧
    (∀ k, k ≠ "ping-" ++ u → (canMakePing pings u now).2 k = pings k) ∧
    (info.lastPingTime + PingRateLimit ≤ now →
      (canMakePing pings u now).2 ("ping-" ++ u) = some ⟨0, now⟩) := by
  rw [canMakePing_eq_of_elapsed pings u now info h hgt]
  refine ⟨rfl, setPingInfo_self _ _ _ _, fun k hk => setPingInfo_ne _ _ _ _ _ hk, ?_⟩
  intro hle
  have hmax : max 0 (info.lastPingTime + PingRateLimit - now) = 0 :=
    max_eq_left (by omega)
  simp only [hmax]
  exact setPingInfo_self _ _ _ _

/-- C2 witness: alice with record `{blockTime := 0, lastPingTime := 0}`
calling at time 10 is allowed and the record becomes
`{blockTime := 50, lastPingTime := 10}`; with the same prior record a call
at time 70 stores a block period clamped to `0`. -/
theorem canMakePing_allowed_update_witness :
    (canMakePing (fun k => if k = "ping-alice" then some ⟨0, 0⟩ else none)
      "alice" 10).1 = true ∧
    (canMakePing (fun k => if k = "ping-alice" then some ⟨0, 0⟩ else none)
      "alice" 10).2 "ping-alice" = some ⟨50, 10⟩ ∧
    (canMakePing (fun k => if k = "ping-alice" then some ⟨0, 0⟩ else none)
      "alice" 70).2 "ping-alice" = some ⟨0, 70⟩ := by
  have h1 := canMakePing_allowed_update
    (fun k => if k = "ping-alice" then some ⟨0, 0⟩ else none)
    "alice" 10 ⟨0, 0⟩ (by decide) (by decide)
  have h2 := canMakePing_allowed_update
    (fun k => if k = "ping-alice" then some ⟨0, 0⟩ else none)
    "alice" 70 ⟨0, 0⟩ (by decide) (by decide)
  exact ⟨h1.1, h1.2.1, h2.2.2.2 (by decide)⟩

/-- C4: whenever `handlePing` answers the rate-limited (Blocked) response,
the entire store — the caller's RateState, the leaderboard and the
cardinality sketch — is returned unchanged. -/
theorem handlePing_blocked_no_mutation (st : Store) (cookie : Option String)
    (now : Int) (h : (handlePing st cookie now).1 = .rateLimited) :
    (handlePing st cookie now).2 = st := by
  cases hv : validateSession st.sessions cookie with
  | unauthorized =>
    rw [handlePing_eq_of_unauthorized st cookie now hv] at h
    simp at h
  | ok u =>
    by_cases ha : (canMakePing st.pings u now).1 = true
    · rw [handlePing_eq_of_allowed st cookie now u hv ha] at h
      simp at h
    · have ha2 : (canMakePing st.pings u now).1 = false := by
        simpa using ha
      rw [handlePing_eq_of_blocked st cookie now u hv ha2]

/-- C4 witness: bob, blocked because his record was written in the same
second, gets the rate-limited response and the store is left as it was. -/
theorem handlePing_blocked_no_mutation_witness :
    (handlePing
      ⟨fun s => if s = "t" then some "bob" else none,
       fun k => if k = "ping-bob" then some ⟨0, 5⟩ else none, [], []⟩
      (some "t") 5).2 =
    ⟨fun s => if s = "t" then some "bob" else none,
     fun k => if k = "ping-bob" then some ⟨0, 5⟩ else none, [], []⟩ :=
  handlePing_blocked_no_mutation
    ⟨fun s => if s = "t" then some "bob" else none,
     fun k => if k = "ping-bob" then some ⟨0, 5⟩ else none, [], []⟩
    (some "t") 5 (by decide)

/-- Session table binding cookie `"tok"` to caller `"alice"`. -/
def aliceSessions : String → Option String :=
  fun s => if s = "tok" then some "alice" else none

/-- Fresh store for the spec scenario: alice's session present, no
RateState yet, empty leaderboard and empty sketch. -/
def aliceStore : Store := ⟨aliceSessions, fun _ => none, [], []⟩

/-- C1 counterexample: with window 60, alice allowed at t=0 calls again at
t=10, well within the window, and the code answers Allowed (ok), not
Blocked (rateLimited): the first-ever call stores a zero block period. -/
theorem secondCallWithinWindowNotBlocked :
    (handlePing (handlePing aliceStore (some "tok") 0).2 (some "tok") 10).1
      = PingResp.ok ∧
    ¬ (handlePing (handlePing aliceStore (some "tok") 0).2 (some "tok") 10).1
        = PingResp.rateLimited := by
  decide

/-- C1 (amended): the first-ever call stores `blockTime = 0`, so the
caller's second call is Allowed whenever it is strictly later than the
first, and Blocked when it is not later; in the window-60 scenario alice
is Allowed at t=0, Allowed again at t=10 with score 2, and Allowed at
t=65 with score 3. -/
theorem second_call_after_first_allowed (st : Store) (tok u : String)
    (t0 t1 : Int) (hv : validateSession st.sessions (some tok) = .ok u)
    (hp : st.pings ("ping-" ++ u) = none) :
    (handlePing st (some tok) t0).1 = .ok ∧
    (t0 < t1 →
      (handlePing (handlePing st (some tok) t0).2 (some tok) t1).1 = .ok) ∧
    (t1 ≤ t0 →
      (handlePing (handlePing st (some tok) t0).2 (some tok) t1).1
        = .rateLimited) ∧
    ((handlePing aliceStore (some "tok") 0).1 = .ok ∧
     (handlePing (runPing aliceStore [(some "tok", 0)]) (some "tok") 10).1
        = .ok ∧
     zscore (runPing aliceStore
        [(some "tok", 0), (some "tok", 10)]).board "alice" = some 2 ∧
     (handlePing (runPing aliceStore [(some "tok", 0), (some "tok", 10)])
        (some "tok") 65).1 = .ok ∧
     zscore (runPing aliceStore
        [(some "tok", 0), (some "tok", 10), (some "tok", 65)]).board "alice"
        = some 3) := by
  have hc0 := canMakePing_eq_of_none st.pings u t0 hp
  have ha0 : (canMakePing st.pings u t0).1 = true := by rw [hc0]
  have hstep := handlePing_eq_of_allowed st (some tok) t0 u hv ha0
  have hsess : (handlePing st (some tok) t0).2.sessions = st.sessions := by
    rw [hstep]
  have hv1 : validateSession (handlePing st (some tok) t0).2.sessions
      (some tok) = .ok u := by rw [hsess]; exact hv
  have hping1 : (handlePing st (some tok) t0).2.pings ("ping-" ++ u)
      = some ⟨0, t0⟩ := by
    rw [hstep]
    show (canMakePing st.pings u t0).2 ("ping-" ++ u) = some ⟨0, t0⟩
    rw [hc0]
    exact setPingInfo_self _ _ _ _
  refine ⟨by rw [hstep], ?_, ?_, by decide, by decide, by decide, by decide,
    by decide⟩
  · intro hlt
    have hc1 := canMakePing_eq_of_elapsed (handlePing st (some tok) t0).2.pings
      u t1 ⟨0, t0⟩ hping1 (by show t1 - t0 > 0; omega)
    have ha1 : (canMakePing (handlePing st (some tok) t0).2.pings u t1).1
        = true := by rw [hc1]
    rw [handlePing_eq_of_allowed (handlePing st (some tok) t0).2 (some tok)
      t1 u hv1 ha1]
  · intro hle
    have hc1 := canMakePing_eq_of_within (handlePing st (some tok) t0).2.pings
      u t1 ⟨0, t0⟩ hping1 (by show ¬ t1 - t0 > 0; omega)
    have ha1 : (canMakePing (handlePing st (some tok) t0).2.pings u t1).1
        = false := by rw [hc1]
    rw [handlePing_eq_of_blocked (handlePing st (some tok) t0).2 (some tok)
      t1 u hv1 ha1]

/-- C1 amended witness: alice at times 0 then 10 is allowed both times. -/
theorem second_call_after_first_allowed_witness :
    (handlePing aliceStore (some "tok") 0).1 = .ok ∧
    (handlePing (handlePing aliceStore (some "tok") 0).2 (some "tok") 10).1
      = .ok := by
  have h := second_call_after_first_allowed aliceStore "tok" "alice" 0 10
    (by decide) rfl
  exact ⟨h.1, h.2.1 (by decide)⟩

/-! ### Leaderboard score accounting (C5) -/

theorem zscore_zadd_self (board : List (String × Int)) (m : String) (s : Int) :
    zscore (zadd board m s) m = some s := by
  induction board with
  | nil => simp [zadd, zscore]
  | cons p rest ih =>
    by_cases h : p.1 = m
    · simp [zadd, h, zscore]
    · simp [zadd, h, zscore, ih]

theorem zscore_zadd_ne (board : List (String × Int)) (m v : String) (s : Int)
    (h : v ≠ m) : zscore (zadd board m s) v = zscore board v := by
  induction board with
  | nil => simp [zadd, zscore, Ne.symm h]
  | cons p rest ih =>
    by_cases hp : p.1 = m
    · have hpv : ¬ p.1 = v := by rw [hp]; exact Ne.symm h
      simp [zadd, hp, zscore, Ne.symm h, hpv]
    · simp only [zadd, if_neg hp, zscore]
      rw [ih]

theorem handlePing_sessions (st : Store) (c : Option String) (t : Int) :
    (handlePing st c t).2.sessions = st.sessions := by
  cases hv : validateSession st.sessions c with
  | unauthorized => rw [handlePing_eq_of_unauthorized st c t hv]
  | ok u =>
    by_cases ha : (canMakePing st.pings u t).1 = true
    · rw [handlePing_eq_of_allowed st c t u hv ha]
    · rw [handlePing_eq_of_blocked st c t u hv (by simpa using ha)]

theorem handlePing_ok_auth (st : Store) (c : Option String) (t : Int)
    (h : (handlePing st c t).1 = .ok) :
    ∃ v, validateSession st.sessions c = .ok v := by
  cases hv : validateSession st.sessions c with
  | unauthorized =>
    rw [handlePing_eq_of_unauthorized st c t hv] at h
    simp at h
  | ok u => exact ⟨u, rfl⟩

theorem handlePing_board_of_ok (st : Store) (c : Option String) (t : Int)
    (u : String) (hv : validateSession st.sessions c = .ok u)
    (hok : (handlePing st c t).1 = .ok) :
    (handlePing st c t).2.board
      = zadd st.board u ((zscore st.board u).getD 0 + 1) := by
  by_cases ha : (canMakePing st.pings u t).1 = true
  · rw [handlePing_eq_of_allowed st c t u hv ha]
    rfl
  · rw [handlePing_eq_of_blocked st c t u hv (by simpa using ha)] at hok
    simp at hok

theorem handlePing_board_of_not_ok (st : Store) (c : Option String) (t : Int)
    (h : (handlePing st c t).1 ≠ .ok) :
    (handlePing st c t).2.board = st.board := by
  cases hv : validateSession st.sessions c with
  | unauthorized => rw [handlePing_eq_of_unauthorized st c t hv]
  | ok u =>
    by_cases ha : (canMakePing st.pings u t).1 = true
    · rw [handlePing_eq_of_allowed st c t u hv ha] at h
      simp at h
    · rw [handlePing_eq_of_blocked st c t u hv (by simpa using ha)]

/-- Number of requests in `events` that are answered ok (Allowed) while
authenticated as caller `u`, threading the store through the run exactly
as `runPing` does. -/
def allowedCountFor (st : Store) (u : String) :
    List (Option String × Int) → Nat
  | [] => 0
  | e :: rest =>
    (if (handlePing st e.1 e.2).1 = PingResp.ok ∧
        validateSession st.sessions e.1 = AuthResult.ok u then 1 else 0)
      + allowedCountFor (handlePing st e.1 e.2).2 u rest

theorem runPing_score (events : List (Option String × Int)) :
    ∀ (st : Store) (u : String),
    (zscore (runPing st events).board u).getD 0
      = (zscore st.board u).getD 0 + (allowedCountFor st u events : Int) := by
  induction events with
  | nil => intro st u; simp [runPing, allowedCountFor]
  | cons e rest ih =>
    intro st u
    rw [runPing, ih, allowedCountFor]
    have hstep : (zscore (handlePing st e.1 e.2).2.board u).getD 0
        = (zscore st.board u).getD 0 +
          ((if (handlePing st e.1 e.2).1 = PingResp.ok ∧
              validateSession st.sessions e.1 = AuthResult.ok u
            then 1 else 0 : Nat) : Int) := by
      by_cases hok : (handlePing st e.1 e.2).1 = PingResp.ok
      · obtain ⟨v, hv⟩ := handlePing_ok_auth st e.1 e.2 hok
        have hb := handlePing_board_of_ok st e.1 e.2 v hv hok
        by_cases huv : v = u
        · subst huv
          rw [hb, zscore_zadd_self]
          simp [hok, hv]
        · rw [hb, zscore_zadd_ne st.board v u _ (Ne.symm huv)]
          have hnv : ¬ validateSession st.sessions e.1 = AuthResult.ok u := by
            rw [hv]; simp [huv]
          simp [hnv]
      · rw [handlePing_board_of_not_ok st e.1 e.2 hok]
        simp [hok]
    rw [hstep]
    push_cast
    ring

/-- C5: for a caller absent from the leaderboard, after any request
sequence the caller's score is exactly the number of its allowed calls;
moreover each recording writes back the read score (default 0) plus one,
and a request not answered ok leaves the leaderboard unchanged. -/
theorem leaderboard_score_is_allowed_count (st : Store) (u : String)
    (events : List (Option String × Int)) (h : zscore st.board u = none) :
    (zscore (runPing st events).board u).getD 0
        = (allowedCountFor st u events : Int) ∧
    (∀ b hll v, (increaseCounter b hll v).1
        = zadd b v ((zscore b v).getD 0 + 1)) ∧
    (∀ s2 c t, (handlePing s2 c t).1 ≠ PingResp.ok →
        (handlePing s2 c t).2.board = s2.board) := by
  refine ⟨?_, fun b hll v => rfl,
    fun s2 c t hne => handlePing_board_of_not_ok s2 c t hne⟩
  rw [runPing_score events st u, h]
  simp

/-- C5 witness: alice calling at times 0, 10 and 15 is allowed twice
(blocked at 15) and ends with score 2. -/
theorem leaderboard_score_is_allowed_count_witness :
    (zscore (runPing aliceStore
        [(some "tok", 0), (some "tok", 10), (some "tok", 15)]).board
      "alice").getD 0
      = (allowedCountFor aliceStore "alice"
          [(some "tok", 0), (some "tok", 10), (some "tok", 15)] : Int) ∧
    allowedCountFor aliceStore "alice"
        [(some "tok", 0), (some "tok", 10), (some "tok", 15)] = 2 :=
  ⟨(leaderboard_score_is_allowed_count aliceStore "alice"
      [(some "tok", 0), (some "tok", 10), (some "tok", 15)] rfl).1, by decide⟩

/-! ### Leaderboard reader (C6) and session gate (C7) -/

/-- C6: the leaderboard reader returns at most `k` entries, sorted
non-increasing by score, and an empty leaderboard yields the empty
sequence. -/
theorem topK_bounded_sorted (board : List (String × Int)) (k : Nat) :
    (zRevRangeWithScores board k).length ≤ k ∧
    List.Pairwise (fun p q : String × Int => q.2 ≤ p.2)
      (zRevRangeWithScores board k) ∧
    zRevRangeWithScores [] k = [] := by
  refine ⟨?_, ?_, by simp [zRevRangeWithScores]⟩
  · rw [zRevRangeWithScores, List.length_take]
    exact min_le_left _ _
  · have hs : List.Pairwise (fun p q : String × Int => q.2 ≤ p.2)
        (List.insertionSort (fun p q => q.2 ≤ p.2) board) := by
      haveI : IsTotal (String × Int) (fun p q => q.2 ≤ p.2) :=
        ⟨fun a b => le_total b.2 a.2⟩
      haveI : IsTrans (String × Int) (fun p q => q.2 ≤ p.2) :=
        ⟨fun a b c hab hbc => le_trans hbc hab⟩
      exact List.sorted_insertionSort _ board
    exact List.Pairwise.sublist (List.take_sublist k _) hs

/-- C7: the session gate answers Unauthorized exactly when the cookie is
missing or empty or the token is not bound to a (nonempty) caller
identity; on a hit it returns the bound identity; and `handlePing` never
writes the session keyspace. -/
theorem sessionGate_spec (sessions : String → Option String)
    (cookie : Option String) :
    (validateSession sessions cookie = .unauthorized ↔
      ¬ ∃ t u, cookie = some t ∧ t ≠ "" ∧ u ≠ "" ∧ sessions t = some u) ∧
    (∀ t u, cookie = some t → t ≠ "" → u ≠ "" → sessions t = some u →
      validateSession sessions cookie = .ok u) ∧
    (∀ st now, (handlePing st cookie now).2.sessions = st.sessions) := by
  refine ⟨?_, ?_, fun st now => handlePing_sessions st cookie now⟩
  · constructor
    · intro hval
      rintro ⟨t, u, hc, ht, hu, hs⟩
      subst hc
      simp only [validateSession, hs] at hval
      simp [ht, hu] at hval
    · intro hne
      cases cookie with
      | none => rfl
      | some t =>
        cases hs : sessions t with
        | none => simp [validateSession, hs]
        | some u =>
          by_cases ht : t = ""
          · simp only [validateSession, hs]
            simp [ht]
          · by_cases hu : u = ""
            · simp only [validateSession, hs]
              simp [hu]
            · exact absurd ⟨t, u, rfl, ht, hu, hs⟩ hne
  · intro t u hc ht hu hs
    subst hc
    simp [validateSession, hs, ht, hu]

/-- C7 witness: the bound token `"tok"` resolves to alice. -/
theorem sessionGate_spec_witness :
    validateSession aliceSessions (some "tok") = .ok "alice" :=
  (sessionGate_spec aliceSessions (some "tok")).2.1 "tok" "alice" rfl
    (by decide) (by decide) rfl

/-! ### Store-failure behaviour (C8) -/

/-- Outcome of a Go function that may call `panic`. -/
inductive GoResult (α : Type) where
  | ok : α → GoResult α
  | panicked : GoResult α
deriving DecidableEq, Repr

/-- Go `increaseCounter` with the store's failure behaviour made explicit.
A failed `ZScore` read is ignored by the code (`totalPing, _ := ...`), so
`totalPing` falls back to the client's zero value; a failed `ZAdd` or
`PFAdd` write hits `panic(err)`. -/
def increaseCounterF (zscoreErr zaddErr pfaddErr : Bool)
    (board : List (String × Int)) (hll : List String) (username : String) :
    GoResult (List (String × Int) × List String) :=
  let totalPing := if zscoreErr then 0 else (zscore board username).getD 0
  if zaddErr then .panicked
  else
    let board2 := zadd board username (totalPing + 1)
    if pfaddErr then .panicked
    else .ok (board2, pfadd hll username)

/-- Go `canMakePing` with the store's failure behaviour made explicit.
A failed `HGetAll` read is ignored (`pingInfo, _ := ...`), yielding an
empty map and hence the first-call write path; a failed `HSet` inside
`setPingInfo` hits `panic(err)`. -/
def canMakePingF (hgetErr hsetErr : Bool)
    (pings : String → Option RateState) (username : String) (now : Int) :
    GoResult (Bool × (String → Option RateState)) :=
  let info := if hgetErr then none else pings ("ping-" ++ username)
  match info with
  | none =>
    if hsetErr then .panicked
    else .ok (true, setPingInfo pings ("ping-" ++ username) 0 now)
  | some r =>
    if now - r.lastPingTime > r.blockTime then
      if hsetErr then .panicked
      else .ok (true, setPingInfo pings ("ping-" ++ username)
        (max 0 (r.lastPingTime + PingRateLimit - now)) now)
    else .ok (false, pings)

/-- Decision component of a fallible `canMakePing` run, `none` on panic. -/
def allowedOf : GoResult (Bool × (String → Option RateState)) → Option Bool
  | .ok r => some r.1
  | .panicked => none

/-- Ping-keyspace lookup after a fallible `canMakePing` run, `none` on
panic. -/
def pingsOf : GoResult (Bool × (String → Option RateState)) → String →
    Option (Option RateState)
  | .ok r, k => some (r.2 k)
  | .panicked, _ => none

/-- Bob currently blocked: 50 seconds of block starting at time 10. -/
def bobPings : String → Option RateState :=
  fun k => if k = "ping-bob" then some ⟨50, 10⟩ else none

/-- C8 (refuted by the code): store failures are neither propagated as
error results nor do they prevent the dependent write. With alice at
score 5, a failed `ZScore` read still issues the `ZAdd` write, clobbering
her score down to 1; failed `ZAdd`/`PFAdd` writes panic; bob, who would
be Blocked, is Allowed when the `HGetAll` read fails — the first-call
write path overwrites his record with `{blockTime := 0, lastPingTime := 11}` —
and a failed `HSet` write panics in both write paths. -/
theorem storeFailuresPanicOrClobber :
    increaseCounterF true false false [("alice", 5)] [] "alice"
      = .ok ([("alice", 1)], ["alice"]) ∧
    increaseCounterF false true false [("alice", 5)] [] "alice"
      = .panicked ∧
    increaseCounterF false false true [("alice", 5)] [] "alice"
      = .panicked ∧
    allowedOf (canMakePingF false false bobPings "bob" 11) = some false ∧
    allowedOf (canMakePingF true false bobPings "bob" 11) = some true ∧
    pingsOf (canMakePingF true false bobPings "bob" 11) "ping-bob"
      = some (some ⟨0, 11⟩) ∧
    canMakePingF true true bobPings "bob" 11 = .panicked ∧
    canMakePingF false true (fun _ => none) "bob" 11 = .panicked :=
  ⟨by decide, by decide, by decide, by decide, by decide, by decide, rfl, rfl⟩

/-! ### Cardinality estimator (C9) -/

/-- Run the usage recorder over a list of callers in order. -/
def recordAll (board : List (String × Int)) (hll : List String) :
    List String → List (String × Int) × List String
  | [] => (board, hll)
  | u :: rest =>
    recordAll (increaseCounter board hll u).1 (increaseCounter board hll u).2
      rest

theorem recordAll_hll (names : List String) :
    ∀ board hll, (recordAll board hll names).2 = names.foldl pfadd hll := by
  induction names with
  | nil => intro b h; rfl
  | cons a rest ih =>
    intro b h
    rw [recordAll, ih]
    rfl

theorem pfadd_foldl_length (names : List String) :
    ∀ acc, names.Nodup → (∀ m ∈ names, m ∉ acc) →
    (names.foldl pfadd acc).length = acc.length + names.length := by
  induction names with
  | nil => intro acc _ _; simp
  | cons a rest ih =>
    intro acc hnd hdisj
    rw [List.foldl]
    have ha : a ∉ acc := hdisj a (List.mem_cons_self a rest)
    have h1 : pfadd acc a = acc ++ [a] := by simp [pfadd, ha]
    have hnd2 : rest.Nodup := hnd.of_cons
    have hdisj2 : ∀ m ∈ rest, m ∉ pfadd acc a := by
      intro m hm
      rw [h1]
      simp only [List.mem_append, List.mem_singleton]
      rintro (hma | hma)
      · exact hdisj m (List.mem_cons_of_mem a hm) hma
      · subst hma
        exact (List.nodup_cons.mp hnd).1 hm
    rw [ih (pfadd acc a) hnd2 hdisj2, h1]
    simp [List.length_append]
    omega

/-- C9: after the usage recorder has recorded N distinct callers, the
cardinality reader returns a non-negative count equal to N (the exact-set
model of the probabilistic sketch). -/
theorem distinctCountExact (board : List (String × Int))
    (names : List String) (hnd : names.Nodup) :
    0 ≤ handleCount (recordAll board [] names).2 ∧
    handleCount (recordAll board [] names).2 = names.length := by
  have h2 : (recordAll board [] names).2 = names.foldl pfadd [] :=
    recordAll_hll names board []
  have h3 : (names.foldl pfadd []).length = 0 + names.length :=
    pfadd_foldl_length names [] hnd (by simp)
  constructor
  · rw [h2]
    exact Int.natCast_nonneg _
  · rw [h2]
    show ((names.foldl pfadd []).length : Int) = (names.length : Int)
    rw [h3]
    simp

/-- C9 witness: recording three distinct callers gives estimate 3. -/
theorem distinctCountExact_witness :
    0 ≤ handleCount (recordAll [] [] ["alice", "bob", "carol"]).2 ∧
    handleCount (recordAll [] [] ["alice", "bob", "carol"]).2 = 3 :=
  distinctCountExact [] ["alice", "bob", "carol"] (by decide)

/-! ### RateState invariant (C10) -/

/-- The C10 invariant: every stored RateState record keeps
`0 ≤ blockTime ≤ PingRateLimit`. -/
def PingInv (st : Store) : Prop :=
  ∀ k r, st.pings k = some r → 0 ≤ r.blockTime ∧ r.blockTime ≤ PingRateLimit

/-- Strengthened invariant for the induction: additionally every stored
`lastPingTime` is at most `T`. -/
def PingInvT (st : Store) (T : Int) : Prop :=
  ∀ k r, st.pings k = some r →
    0 ≤ r.blockTime ∧ r.blockTime ≤ PingRateLimit ∧ r.lastPingTime ≤ T

theorem handlePing_invT (st : Store) (c : Option String) (t T : Int)
    (hI : PingInvT st T) (hT : T ≤ t) : PingInvT (handlePing st c t).2 t := by
  cases hv : validateSession st.sessions c with
  | unauthorized =>
    rw [handlePing_eq_of_unauthorized st c t hv]
    intro k r hk
    obtain ⟨h1, h2, h3⟩ := hI k r hk
    exact ⟨h1, h2, le_trans h3 hT⟩
  | ok u =>
    by_cases ha : (canMakePing st.pings u t).1 = true
    · rw [handlePing_eq_of_allowed st c t u hv ha]
      intro k r hk
      have hk2 : (canMakePing st.pings u t).2 k = some r := hk
      cases hp : st.pings ("ping-" ++ u) with
      | none =>
        rw [canMakePing_eq_of_none st.pings u t hp] at hk2
        have hk3 : setPingInfo st.pings ("ping-" ++ u) 0 t k = some r := hk2
        by_cases hkk : k = "ping-" ++ u
        · subst hkk
          rw [setPingInfo_self] at hk3
          injection hk3 with h4
          subst h4
          refine ⟨le_refl 0, ?_, le_refl t⟩
          show (0 : Int) ≤ PingRateLimit
          decide
        · rw [setPingInfo_ne _ _ _ _ _ hkk] at hk3
          obtain ⟨h1, h2, h3⟩ := hI k r hk3
          exact ⟨h1, h2, le_trans h3 hT⟩
      | some info =>
        by_cases hgt : t - info.lastPingTime > info.blockTime
        · rw [canMakePing_eq_of_elapsed st.pings u t info hp hgt] at hk2
          have hk3 : setPingInfo st.pings ("ping-" ++ u)
              (max 0 (info.lastPingTime + PingRateLimit - t)) t k
                = some r := hk2
          by_cases hkk : k = "ping-" ++ u
          · subst hkk
            rw [setPingInfo_self] at hk3
            injection hk3 with h4
            subst h4
            have hlast : info.lastPingTime ≤ T := (hI _ info hp).2.2
            refine ⟨le_max_left _ _, max_le (by decide) (by omega), le_refl t⟩
          · rw [setPingInfo_ne _ _ _ _ _ hkk] at hk3
            obtain ⟨h1, h2, h3⟩ := hI k r hk3
            exact ⟨h1, h2, le_trans h3 hT⟩
        · rw [canMakePing_eq_of_within st.pings u t info hp hgt] at ha
          simp at ha
    · rw [handlePing_eq_of_blocked st c t u hv (by simpa using ha)]
      intro k r hk
      obtain ⟨h1, h2, h3⟩ := hI k r hk
      exact ⟨h1, h2, le_trans h3 hT⟩

theorem runPing_invT (events : List (Option String × Int)) :
    ∀ (st : Store) (T : Int), PingInvT st T →
    List.Pairwise (fun a b : Int => a ≤ b) (T :: events.map Prod.snd) →
    PingInv (runPing st events) := by
  induction events with
  | nil =>
    intro st T hI _
    intro k r hk
    have hk2 : st.pings k = some r := hk
    obtain ⟨h1, h2, _⟩ := hI k r hk2
    exact ⟨h1, h2⟩
  | cons e rest ih =>
    intro st T hI hp
    rw [runPing]
    rw [List.map_cons] at hp
    obtain ⟨hall, htail⟩ := List.pairwise_cons.mp hp
    have hTe : T ≤ e.2 := hall e.2 (List.mem_cons_self _ _)
    exact ih (handlePing st e.1 e.2).2 e.2
      (handlePing_invT st e.1 e.2 T hI hTe) htail

/-- C10: starting from a store with no RateState records, under a
non-decreasing clock (request timestamps sorted), after any prefix of the
request sequence every stored RateState record satisfies
`0 ≤ blockTime ≤ PingRateLimit` — the bound holds when a record is
written and is preserved by every later call. -/
theorem rateState_blockTime_bounded (st : Store)
    (events p q : List (Option String × Int))
    (hemp : ∀ k, st.pings k = none)
    (hsorted : List.Pairwise (fun a b : Int => a ≤ b) (events.map Prod.snd))
    (hsplit : events = p ++ q) :
    PingInv (runPing st p) := by
  subst hsplit
  rw [List.map_append] at hsorted
  have hs_p : List.Pairwise (fun a b : Int => a ≤ b) (p.map Prod.snd) :=
    (List.pairwise_append.mp hsorted).1
  cases p with
  | nil =>
    intro k r hk
    have hk2 : st.pings k = some r := hk
    rw [hemp k] at hk2
    cases hk2
  | cons e rest =>
    rw [List.map_cons] at hs_p
    have hI : PingInvT st e.2 := by
      intro k r hk
      rw [hemp k] at hk
      cases hk
    apply runPing_invT (e :: rest) st e.2 hI
    rw [List.map_cons]
    apply List.pairwise_cons.mpr
    refine ⟨?_, hs_p⟩
    intro b hb
    rcases List.mem_cons.mp hb with hb | hb
    · exact le_of_eq hb.symm
    · exact (List.pairwise_cons.mp hs_p).1 b hb

/-- C10 witness: alice calling at times 0 and 10 from an empty store
leaves only records with block period between 0 and the window. -/
theorem rateState_blockTime_bounded_witness :
    PingInv (runPing aliceStore [(some "tok", 0), (some "tok", 10)]) :=
  rateState_blockTime_bounded aliceStore
    [(some "tok", 0), (some "tok", 10)]
    [(some "tok", 0), (some "tok", 10)] []
    (fun _ => rfl) (by decide) (by simp)
